import Mathlib

/-!
Verification of the OpenSBLI kernel/stencil derivation and code-emission
pipeline, as a shallow embedding of the Python sources
(`opensbli/core/kernel.py`, `opensbli/opsc.py`, `autofd/opsc.py`,
`opensbli/utilities/helperfunctions.py`).

Conventions of the embedding:
* sympy expression atoms that a claim needs are carried as explicit data
  (`Finset` fields of `KEquation`);
* Python `dict`s are association lists with first-match lookup and
  in-place replacement on key collision (insertion order preserved,
  as in Python 3.7+);
* Python's `sorted` (a stable sort) is modelled by `List.insertionSort`
  with the corresponding total preorder; `List.insertionSort` is stable,
  and a stable sort of a list with respect to a total preorder is unique,
  so the model is exact;
* machine integers are `Int` (no overflow is relevant anywhere here);
* a Python `raise` is the `Except.error` branch of the modelled function.
-/

namespace OpenSBLI

/-- A sympy `Rational` in normalised form: numerator `p`, denominator `q`.
sympy keeps `q > 0` and `gcd(|p|, q) = 1`, and a `Rational` with `q = 1` is
always constructed as the subclass `Integer`; so `q = 1` is exactly the
`isinstance(rc, Integer)` test of `Kernel.Rational_constants`. -/
structure SRat where
  p : Int
  q : Int
deriving DecidableEq, Repr

/-- The content of one sympy `Equality` that the kernel claims need:
the `DataSetBase` atoms of its two sides (`eq.lhs.atoms(DataSetBase)`,
`eq.rhs.atoms(DataSetBase)`) and the `Rational` atoms of the whole
equation (`eq.atoms(Rational)`, which in sympy includes the `Integer`s). -/
structure KEquation (F : Type) where
  lhsAtoms : Finset F
  rhsAtoms : Finset F
  ratAtoms : Finset SRat

/-- An entry of `Kernel.equations`.  The list can hold non-`Equality`
objects (`add_equation` appends arbitrary list contents), and every
derived property guards with `isinstance(eq, Equality)`; `nonEq` stands
for any non-`Equality` entry. -/
inductive PyEqItem (F : Type) where
  | eqn (e : KEquation F)
  | nonEq

variable {F : Type} [DecidableEq F]

/-- Models `Kernel.lhs_datasets` (kernel.py lines 179-185): union over the
`Equality` entries of the lhs `DataSetBase` atoms. -/
def lhs_datasets (eqs : List (PyEqItem F)) : Finset F :=
  eqs.foldl
    (fun (s : Finset F) (e : PyEqItem F) => match e with
      | PyEqItem.eqn e => s ∪ e.lhsAtoms
      | PyEqItem.nonEq => s) ∅

/-- Models `Kernel.rhs_datasets` (kernel.py lines 187-193). -/
def rhs_datasets (eqs : List (PyEqItem F)) : Finset F :=
  eqs.foldl
    (fun (s : Finset F) (e : PyEqItem F) => match e with
      | PyEqItem.eqn e => s ∪ e.rhsAtoms
      | PyEqItem.nonEq => s) ∅

/-- All `DataSetBase` atoms referenced anywhere in the kernel's equations. -/
def all_datasets (eqs : List (PyEqItem F)) : Finset F :=
  eqs.foldl
    (fun (s : Finset F) (e : PyEqItem F) => match e with
      | PyEqItem.eqn e => s ∪ (e.lhsAtoms ∪ e.rhsAtoms)
      | PyEqItem.nonEq => s) ∅

/-- Models `Kernel.Rational_constants` (kernel.py lines 195-206): the union of the
`Rational` atoms of the `Equality` entries, with the `Integer`s (`q = 1`)
removed afterwards. -/
def Rational_constants (eqs : List (PyEqItem F)) : Finset SRat :=
  (eqs.foldl
    (fun (s : Finset SRat) (e : PyEqItem F) => match e with
      | PyEqItem.eqn e => s ∪ e.ratAtoms
      | PyEqItem.nonEq => s) ∅).filter (fun rc => ¬ rc.q = 1)

/-- Models `ins` of `Kernel.opsc_code` (kernel.py lines 281-284) before the
difference: `ins = self.rhs_datasets`; then `inouts = ins ∩ outs`,
`ins = ins − inouts`, `outs = outs − inouts`. -/
def opsc_inouts (eqs : List (PyEqItem F)) : Finset F :=
  (rhs_datasets eqs) ∩ (lhs_datasets eqs)

/-- Models `ins` after `ins = ins.difference(inouts)` (kernel.py line 284). -/
def opsc_ins (eqs : List (PyEqItem F)) : Finset F :=
  (rhs_datasets eqs) \ opsc_inouts eqs

/-- Models `outs` after `outs = outs.difference(inouts)` (kernel.py line 285). -/
def opsc_outs (eqs : List (PyEqItem F)) : Finset F :=
  (lhs_datasets eqs) \ opsc_inouts eqs

/-- The possible arguments of `Kernel.add_equation` (kernel.py lines
121-130): a Python `list`, a single `Equality`, or any other object,
of which only the truthiness is ever inspected. -/
inductive AddEqArg (F : Type) where
  | eqn (e : KEquation F)
  | eqnList (l : List (PyEqItem F))
  | nonEq (truthy : Bool)

/-- Models `Kernel.add_equation` (kernel.py lines 121-130).  The branch order is
the source's `if isinstance(equation, list) / elif isinstance(equation,
Equality) / elif equation: pass / else: raise ValueError`. -/
def add_equation (eqs : List (PyEqItem F)) : AddEqArg F → Except String (List (PyEqItem F))
  | .eqnList l => .ok (eqs ++ l)
  | .eqn e => .ok (eqs ++ [.eqn e])
  | .nonEq true => .ok eqs
  | .nonEq false => .error "Error in kernel add equation."

/-! ## Expression printer (`opensbli/opsc.py`, `OPSCCodePrinter`) -/

/-- Models `OPSCCodePrinter._print_Rational` (opsc.py lines 47-55):
`'%d.0/%d.0' % (p, q)`. -/
def print_Rational (r : SRat) : String :=
  toString r.p ++ ".0/" ++ toString r.q ++ ".0"

/-- The printer's dispatch on a normalised sympy number: an `Integer`
(`q = 1`) is printed by the inherited `_print_Integer` as the plain
integer literal; every other `Rational` reaches `_print_Rational`. -/
def print_Number (r : SRat) : String :=
  if r.q = 1 then toString r.p else print_Rational r

/-- First-match lookup in an association-list model of a Python dict
(`m[k]` returning `none` in place of a `KeyError`). -/
def mapLookup {α β : Type} [DecidableEq α] (m : List (α × β)) (k : α) : Option β :=
  (m.find? (fun e => decide (e.1 = k))).map (fun e => e.2)

/-- In-place update of an association-list model of a Python dict:
`m[k] = v` replaces the first binding of `k`, else appends. -/
def mapInsert {α β : Type} [DecidableEq α] : List (α × β) → α → β → List (α × β)
  | [], k, v => [(k, v)]
  | (k1, v1) :: t, k, v => if k1 = k then (k, v) :: t else (k1, v1) :: mapInsert t k v

/-- Models `','.join([self._print(index) for index in expr.indices])`. -/
def joinIndices (offs : List Int) : String :=
  String.intercalate "," (offs.map toString)

/-- Models `OPSCCodePrinter._print_Indexed` (opsc.py lines 57-77), after the index
symbols have been zeroed (the offsets `offs` are the resulting integers).
`accs` models `self.Indexed_accs`: `none` is the Python `None` (the default
of `ccode`), under which the subscript `self.Indexed_accs[expr.base]` is a
`TypeError`; a missing key is a `KeyError`; a present key holds the
access-mode tag, `none` for a falsy (untagged) entry. -/
def print_Indexed (accs : Option (List (String × Option String))) (base : String)
    (offs : List Int) : Except String String :=
  match accs with
  | none => .error "TypeError: NoneType object is not subscriptable"
  | some m =>
    match mapLookup m base with
    | none => .error "KeyError"
    | some (some tag) => .ok (base ++ "[" ++ tag ++ "(" ++ joinIndices offs ++ ")]")
    | some none => .ok (base ++ "[" ++ joinIndices offs ++ "]")

/-! ## Index expressions and stencil extraction
(`OPSC.relative_stencil`, `OPSC.sort_stencil_indices`,
`StencilObject.sort_stencil_indices`, autofd `OPSC_write_kernel`) -/

/-- A sympy index expression: loop symbols and any other symbols (`sym`),
integer literals, sums and products. -/
inductive IExpr where
  | sym (n : Nat)
  | lit (k : Int)
  | add (a b : IExpr)
  | mul (a b : IExpr)
deriving DecidableEq, Repr

/-- Models `expr.subs(a, v)` for a symbol `a`: structural substitution. -/
def IExpr.subsSym : IExpr → Nat → Int → IExpr
  | .sym m, n, v => if m = n then .lit v else .sym m
  | .lit k, _, _ => .lit k
  | .add a b, n, v => .add (a.subsSym n v) (b.subsSym n v)
  | .mul a b, n, v => .mul (a.subsSym n v) (b.subsSym n v)

/-- Models `expr.atoms(Symbol)`, as the list of symbol occurrences.  sympy
returns a set; the only consumer iterates it and applies an idempotent,
order-independent substitution per symbol, so the list (with possible
repeats) is an equivalent model of any iteration order. -/
def IExpr.atomsSym : IExpr → List Nat
  | .sym m => [m]
  | .lit _ => []
  | .add a b => a.atomsSym ++ b.atomsSym
  | .mul a b => a.atomsSym ++ b.atomsSym

/-- Evaluation of an index expression under an assignment of the symbols. -/
def IExpr.eval (σ : Nat → Int) : IExpr → Int
  | .sym m => σ m
  | .lit k => k
  | .add a b => a.eval σ + b.eval σ
  | .mul a b => a.eval σ * b.eval σ

/-- The loop of `OPSC.relative_stencil` (opsc.py lines 466-467):
`for a in v.atoms(Symbol): outv = outv.subs(a, 0)` — every symbol of the
offset, loop index or not, is substituted by 0. -/
def zeroAllSyms (e : IExpr) : IExpr :=
  e.atomsSym.foldl (fun ex s => ex.subsSym s 0) e

/-- sympy's automatic evaluation: an expression whose leaves are all
`Integer` collapses to the `Integer` it denotes; an expression still
containing a `Symbol` is not an `Integer` (`none`). -/
def reduceToInt : IExpr → Option Int
  | .sym _ => none
  | .lit k => some k
  | .add a b =>
    match reduceToInt a, reduceToInt b with
    | some x, some y => some (x + y)
    | _, _ => none
  | .mul a b =>
    match reduceToInt a, reduceToInt b with
    | some x, some y => some (x * y)
    | _, _ => none

/-- Value of an offset with every symbol at 0. -/
def evalZero (e : IExpr) : Int := e.eval (fun _ => 0)

/-- Collect a list of optional values, `none` if any entry is `none`
(the `Option` traversal used to state `relative_stencil`). -/
def seqOption {α : Type} : List (Option α) → Option (List α)
  | [] => some []
  | o :: t =>
    match o with
    | none => none
    | some x =>
      match seqOption t with
      | none => none
      | some xs => some (x :: xs)

/-- The zeroed offset tuples that `relative_stencil` accumulates in
`retun_val` before sorting. -/
def zeroedOffsets (value : List (List IExpr)) : List (List Int) :=
  value.map (fun va => va.map evalZero)

/-- Python key `lambda indexes: indexes[dim]` as a total preorder on
offset tuples (`getD` with default 0: the source only ever sorts tuples
long enough for the accessed dimension). -/
def dimLe (d : Nat) (x y : List Int) : Prop := x.getD d 0 ≤ y.getD d 0

instance (d : Nat) : DecidableRel (dimLe d) :=
  fun x y => inferInstanceAs (Decidable (x.getD d 0 ≤ y.getD d 0))

/-- Python's comparison of two equal-purpose tuples/lists of integers:
lexicographic, shorter prefix first. -/
def tupLeB : List Int → List Int → Bool
  | [], _ => true
  | _ :: _, [] => false
  | a :: as, b :: bs => if a < b then true else if b < a then false else tupLeB as bs

/-- Relation form of `tupLeB`. -/
def tupLe (x y : List Int) : Prop := tupLeB x y = true

instance : DecidableRel tupLe :=
  fun x y => inferInstanceAs (Decidable (tupLeB x y = true))

/-- Models `OPSC.sort_stencil_indices` (opsc.py lines 473-484) before the final
`flatten`: if the tuples have more than one dimension, repeatedly re-sort
the whole list by each dimension in turn (`for dim in range(ndim):
indexes = sorted(indexes, key=lambda indexes: indexes[dim])`, each pass a
stable sort); otherwise a single `sorted(indexes)`. -/
def sortTuples (indexes : List (List Int)) : List (List Int) :=
  if 1 < (indexes.headD []).length then
    (List.range (indexes.headD []).length).foldl
      (fun acc d => List.insertionSort (dimLe d) acc) indexes
  else
    List.insertionSort tupLe indexes

/-- Models `OPSC.sort_stencil_indices` (opsc.py lines 473-484): the sorted tuples,
flattened into the single list `temp` that the caller stringifies. -/
def sort_stencil_indices (indexes : List (List Int)) : List Int :=
  (sortTuples indexes).flatten

/-- Models `OPSC.relative_stencil` (opsc.py lines 449-472): zero every symbol of
every offset, then sort.  Each zeroed offset is the sympy object produced
by the chain of `subs`, and `reduceToInt` extracts the `Integer` it has
collapsed to; `none` (a surviving symbolic offset) never happens — see
`reduceToInt_zeroAllSyms`.  There is no error path in the source. -/
def relative_stencil (value : List (List IExpr)) : Option (List Int) :=
  (seqOption (value.map (fun va => seqOption (va.map (fun v => reduceToInt (zeroAllSyms v)))))).map
    sort_stencil_indices

/-- Models `StencilObject.sort_stencil_indices` (kernel.py lines 75-80):
one `sorted` with key `lambda tup: tuple(tup[i] for i in range(dim))`,
i.e. lexicographic tuple order; input is the frozenset `self.stencil`,
modelled as a list of its elements. -/
def stencil_sort_tuples (index_set : List (List Int)) : List (List Int) :=
  List.insertionSort tupLe index_set

/-- The stencil-index normalisation of the legacy autofd kernel writer
(autofd/opsc.py lines 93-101): append the all-zero tuple
(`indexes + [parse_expr(', '.join('0' ...))]`), deduplicate
(`list(set(indexes))`), then the same two-branch sort as
`OPSC.sort_stencil_indices`.  `dedup` is one concretisation of the
arbitrary Python set order. -/
def autofd_stencil_tuples (ndim : Nat) (indexes : List (List Int)) : List (List Int) :=
  sortTuples ((indexes ++ [List.replicate ndim 0]).dedup)

/-! The two-dimensional instance of the repeated dimension-wise sort,
used to characterise the order it produces.  At `ndim = 2` the loop of
`OPSC.sort_stencil_indices` is literally: stable-sort by component 0,
then stable-sort the result by component 1. -/

/-- Key `indexes[0]` on pairs. -/
def pairLe0 (x y : Int × Int) : Prop := x.1 ≤ y.1

/-- Key `indexes[1]` on pairs. -/
def pairLe1 (x y : Int × Int) : Prop := x.2 ≤ y.2

/-- Lexicographic order on pairs (dimension 0 most significant) — the
order of `StencilObject.sort_stencil_indices`. -/
def pairLex (x y : Int × Int) : Prop := x.1 < y.1 ∨ (x.1 = y.1 ∧ x.2 ≤ y.2)

/-- Colexicographic order on pairs (dimension 1 most significant,
dimension 0 breaking ties). -/
def pairColex (x y : Int × Int) : Prop := x.2 < y.2 ∨ (x.2 = y.2 ∧ x.1 ≤ y.1)

instance : DecidableRel pairLe0 := fun x y => inferInstanceAs (Decidable (x.1 ≤ y.1))
instance : DecidableRel pairLe1 := fun x y => inferInstanceAs (Decidable (x.2 ≤ y.2))
instance : DecidableRel pairLex :=
  fun x y => inferInstanceAs (Decidable (x.1 < y.1 ∨ (x.1 = y.1 ∧ x.2 ≤ y.2)))
instance : DecidableRel pairColex :=
  fun x y => inferInstanceAs (Decidable (x.2 < y.2 ∨ (x.2 = y.2 ∧ x.1 ≤ y.1)))

/-- Models `OPSC.sort_stencil_indices` unrolled at dimension 2 (tuples as pairs). -/
def opsc_sort_pairs (l : List (Int × Int)) : List (Int × Int) :=
  List.insertionSort pairLe1 (List.insertionSort pairLe0 l)

/-- Pairs encoded as the 2-tuples handled by the generic `sortTuples`. -/
def encodePair (x : Int × Int) : List Int := [x.1, x.2]

/-! ## Halo reduction and iteration range
(`helperfunctions.get_min_max_halo_values`, `Kernel.opsc_code`) -/

/-- One halo contributor: an object answering `get_halos(0)` (the
negative-side extent, typically ≤ 0) and `get_halos(1)` (the
positive-side extent, typically ≥ 0). -/
structure HaloC where
  m : Int
  p : Int
deriving DecidableEq, Repr

/-- Models `d.get_halos(side)`. -/
def HaloC.get_halos (h : HaloC) (side : Nat) : Int :=
  if side = 0 then h.m else h.p

/-- Models `get_min_max_halo_values` (helperfunctions.py lines 5-19): per
direction, the min of the negative-side contributor extents (0 when the
set is empty) and the max of the positive-side ones (0 when empty).
Each per-direction `halo_ranges[d]` is the pair of contributor sets,
modelled as lists (Python `min`/`max` over a set ignores order). -/
def get_min_max_halo_values (halos : List (List HaloC × List HaloC)) : List Int × List Int :=
  (halos.map (fun dir =>
      match dir.1.map (fun d => d.get_halos 0) with
      | [] => 0
      | h :: t => t.foldl min h),
   halos.map (fun dir =>
      match dir.2.map (fun d => d.get_halos 1) with
      | [] => 0
      | h :: t => t.foldl max h))

/-- The iteration range computed by `Kernel.opsc_code` (kernel.py lines
286-291): `range_of_eval[d][0] = self.ranges[d][0] + halo_m[d]`,
`range_of_eval[d][1] = self.ranges[d][1] + halo_p[d]`. -/
def range_of_eval (ndim : Nat) (ranges : List (Int × Int))
    (halos : List (List HaloC × List HaloC)) : List (Int × Int) :=
  (List.range ndim).map (fun d =>
    ((ranges.getD d (0, 0)).1 + (get_min_max_halo_values halos).1.getD d 0,
     (ranges.getD d (0, 0)).2 + (get_min_max_halo_values halos).2.getD d 0))

/-! ## Program-wide stencil registry
(`Kernel.update_block_datasets`, kernel.py lines 376-385) -/

/-- A canonical stencil footprint: the frozenset of relative-offset
tuples returned by `Kernel.get_stencils`. -/
abbrev Footprint := Finset (List Int)

/-- Models `StencilObject` (kernel.py lines 68-73). -/
structure StencilObject where
  name : String
  stencil : Footprint
  ndim : Nat
deriving DecidableEq

/-- Models `'%02d' % n`. -/
def pad2 (n : Nat) : String :=
  if n < 10 then "0" ++ toString n else toString n

/-- Models `'stencil_%d_%02d' % (block.blocknumber, len(block.block_stencils.keys()))`
(kernel.py line 379). -/
def mkStencilName (bn : Nat) (count : Nat) : String :=
  "stencil_" ++ toString bn ++ "_" ++ pad2 count

/-- Models `block.block_stencils`: a dict from footprint to `StencilObject`,
insertion-ordered. -/
abbrev StencilRegistry := List (Footprint × StencilObject)

/-- Models `block.block_stencils.keys()`. -/
def regKeys (r : StencilRegistry) : List Footprint := r.map (fun e => e.1)

/-- Models `block.block_stencils[stencil]`. -/
def regLookup (r : StencilRegistry) (s : Footprint) : Option StencilObject :=
  (r.find? (fun e => decide (e.1 = s))).map (fun e => e.2)

/-- The registry half of `Kernel.update_block_datasets` (kernel.py lines
376-381): for each footprint of the kernel's `get_stencils()` (in turn),
if it is not yet a key of `block.block_stencils`, append a fresh
`StencilObject` named after the current registry size. -/
def update_block_stencils (bn ndim : Nat) (r : StencilRegistry)
    (stens : List Footprint) : StencilRegistry :=
  stens.foldl
    (fun reg s =>
      if s ∈ regKeys reg then reg
      else reg ++ [(s, ⟨mkStencilName bn reg.length, s, ndim⟩)]) r

/-- Models `self.stencil_names[dset] = block.block_stencils[stencil].name`
(kernel.py lines 382-383), as a function of the registry state. -/
def assignedStencilName (r : StencilRegistry) (s : Footprint) : Option String :=
  (regLookup r s).map (fun o => o.name)

/-- The registry is numbered incrementally in first-use order: the i-th
entry carries the name generated from counter value i. -/
def incrementallyNumbered (bn : Nat) (r : StencilRegistry) : Prop :=
  ∀ i (h : i < r.length), (r.get ⟨i, h⟩).2.name = mkStencilName bn i

/-! ## Program-wide field metadata
(`Kernel.update_block_datasets`, kernel.py lines 330-373) -/

/-- The attributes attached to a registered `DataSetBase`
(`dataset_attributes` plus lines 342-350 / 364-371). -/
structure DSetAttrs where
  block_number : Int
  size : List Int
  halo_ranges : List (Finset Int × Finset Int)
  block_name : String
deriving DecidableEq

/-- The block object as consumed by `update_block_datasets`. -/
structure SBlock where
  blocknumber : Int
  ndim : Nat
  blockname : String
  shape : List Int
  scheme_halos : Finset Int
deriving DecidableEq

/-- The fresh attributes written for a newly registered dataset
(kernel.py lines 342-350 and 364-371): size from the block shape, the
block's number and name, and per-direction halo sets seeded with
`block.get_all_scheme_halos()` on both sides. -/
def dataset_attributes_fresh (blk : SBlock) : DSetAttrs :=
  { block_number := blk.blocknumber
    size := blk.shape
    halo_ranges := (List.range blk.ndim).map (fun _ => (blk.scheme_halos, blk.scheme_halos))
    block_name := blk.blockname }

/-- The two program-wide field-metadata registries touched by
`update_block_datasets`: the global `DataSetsToDeclare.datasetbases`
list and the per-block dict `block.block_datasets`, both keyed here by
the dataset's name. -/
structure BDState where
  datasetbases : List (String × DSetAttrs)
  block_datasets : List (String × DSetAttrs)
deriving DecidableEq

/-- The body of the `for d in dsets` loop of `Kernel.update_block_datasets`
(kernel.py lines 334-373) for one dataset name.  First the global-list
branch (lines 335-351), then the block-dict branch (lines 352-373): an
existing entry is written back unchanged (line 357,
`block.block_datasets[str(d)] = dset`) and then checked — a block-number
mismatch raises `ValueError("Block number error")`, a shape mismatch
raises `ValueError("Shape error")`; the error carries the registry state
at the moment of the raise. -/
def update_block_dataset_one (blk : SBlock) (st : BDState) (dname : String) :
    Except (String × BDState) BDState :=
  let st1 :=
    if dname ∈ st.datasetbases.map (fun e => e.1) then st
    else { st with datasetbases := st.datasetbases ++ [(dname, dataset_attributes_fresh blk)] }
  match mapLookup st1.block_datasets dname with
  | some dset =>
    let st2 := { st1 with block_datasets := mapInsert st1.block_datasets dname dset }
    if blk.blocknumber ≠ dset.block_number then .error ("Block number error", st2)
    else if blk.shape ≠ dset.size then .error ("Shape error", st2)
    else .ok st2
  | none =>
    .ok { st1 with block_datasets := mapInsert st1.block_datasets dname (dataset_attributes_fresh blk) }

/-! ## Helper lemmas -/

omit [DecidableEq F] in
/-- Membership in the accumulate-union folds used by the `Kernel`
dataset/constant properties. -/
theorem mem_eqfold {β : Type} [DecidableEq β] (g : KEquation F → Finset β)
    (eqs : List (PyEqItem F)) (s : Finset β) (x : β) :
    (x ∈ eqs.foldl
      (fun (acc : Finset β) (e : PyEqItem F) => match e with
        | PyEqItem.eqn ke => acc ∪ g ke
        | PyEqItem.nonEq => acc) s)
    ↔ x ∈ s ∨ ∃ ke : KEquation F, PyEqItem.eqn ke ∈ eqs ∧ x ∈ g ke := by
  induction eqs generalizing s with
  | nil => simp
  | cons e t ih =>
    cases e with
    | eqn ke =>
      rw [List.foldl_cons]
      show (x ∈ t.foldl _ (s ∪ g ke)) ↔ _
      rw [ih]
      simp only [Finset.mem_union, List.mem_cons, PyEqItem.eqn.injEq]
      constructor
      · rintro (⟨hs | hg⟩ | ⟨ke1, hm, hx⟩)
        · exact Or.inl hs
        · exact Or.inr ⟨ke, Or.inl rfl, hg⟩
        · exact Or.inr ⟨ke1, Or.inr hm, hx⟩
      · rintro (hs | ⟨ke1, (heq | hm), hx⟩)
        · exact Or.inl (Or.inl hs)
        · exact Or.inl (Or.inr (heq ▸ hx))
        · exact Or.inr ⟨ke1, hm, hx⟩
    | nonEq =>
      rw [List.foldl_cons]
      show (x ∈ t.foldl _ s) ↔ _
      rw [ih]
      simp [List.mem_cons]

theorem mem_lhs_datasets (eqs : List (PyEqItem F)) (x : F) :
    x ∈ lhs_datasets eqs ↔ ∃ ke : KEquation F, PyEqItem.eqn ke ∈ eqs ∧ x ∈ ke.lhsAtoms := by
  have h := mem_eqfold (F := F) (fun ke => ke.lhsAtoms) eqs ∅ x
  simpa [lhs_datasets] using h

theorem mem_rhs_datasets (eqs : List (PyEqItem F)) (x : F) :
    x ∈ rhs_datasets eqs ↔ ∃ ke : KEquation F, PyEqItem.eqn ke ∈ eqs ∧ x ∈ ke.rhsAtoms := by
  have h := mem_eqfold (F := F) (fun ke => ke.rhsAtoms) eqs ∅ x
  simpa [rhs_datasets] using h

theorem mem_all_datasets (eqs : List (PyEqItem F)) (x : F) :
    x ∈ all_datasets eqs ↔
      ∃ ke : KEquation F, PyEqItem.eqn ke ∈ eqs ∧ x ∈ ke.lhsAtoms ∪ ke.rhsAtoms := by
  have h := mem_eqfold (F := F) (fun ke => ke.lhsAtoms ∪ ke.rhsAtoms) eqs ∅ x
  simpa [all_datasets] using h

/-- Lemma: `all_datasets` is the union of the two side-projections. -/
theorem all_datasets_eq_union (eqs : List (PyEqItem F)) :
    all_datasets eqs = lhs_datasets eqs ∪ rhs_datasets eqs := by
  ext x
  rw [mem_all_datasets, Finset.mem_union, mem_lhs_datasets, mem_rhs_datasets]
  constructor
  · rintro ⟨ke, hm, hx⟩
    rw [Finset.mem_union] at hx
    rcases hx with hx | hx
    · exact Or.inl ⟨ke, hm, hx⟩
    · exact Or.inr ⟨ke, hm, hx⟩
  · rintro (⟨ke, hm, hx⟩ | ⟨ke, hm, hx⟩)
    · exact ⟨ke, hm, Finset.mem_union_left _ hx⟩
    · exact ⟨ke, hm, Finset.mem_union_right _ hx⟩

/-! ## Claim C1: dataset classification -/

/-- Claim C1: the classifier of `Kernel.opsc_code` computes
`inout = lhs ∩ rhs`, `in = rhs − inout`, `out = lhs − inout`; the three
sets are pairwise disjoint, their union is the set of all fields
referenced by the kernel's equations, and a field on the lhs of one
equation and the rhs of another (possibly different) equation of the
same kernel lands in `inout`. -/
theorem dataset_classification_partition (eqs : List (PyEqItem F)) :
    opsc_inouts eqs = lhs_datasets eqs ∩ rhs_datasets eqs ∧
    opsc_ins eqs = rhs_datasets eqs \ opsc_inouts eqs ∧
    opsc_outs eqs = lhs_datasets eqs \ opsc_inouts eqs ∧
    Disjoint (opsc_ins eqs) (opsc_outs eqs) ∧
    Disjoint (opsc_ins eqs) (opsc_inouts eqs) ∧
    Disjoint (opsc_outs eqs) (opsc_inouts eqs) ∧
    opsc_ins eqs ∪ opsc_outs eqs ∪ opsc_inouts eqs = all_datasets eqs ∧
    (∀ (k1 k2 : KEquation F) (f : F), PyEqItem.eqn k1 ∈ eqs → PyEqItem.eqn k2 ∈ eqs →
      f ∈ k1.lhsAtoms → f ∈ k2.rhsAtoms → f ∈ opsc_inouts eqs) := by
  refine ⟨Finset.inter_comm _ _, rfl, rfl, ?_, ?_, ?_, ?_, ?_⟩
  · rw [Finset.disjoint_left]
    intro a ha hb
    rw [opsc_ins, Finset.mem_sdiff] at ha
    rw [opsc_outs, Finset.mem_sdiff] at hb
    exact ha.2 (by rw [opsc_inouts, Finset.mem_inter]; exact ⟨ha.1, hb.1⟩)
  · exact Finset.sdiff_disjoint
  · exact Finset.sdiff_disjoint
  · rw [all_datasets_eq_union]
    ext x
    rw [opsc_ins, opsc_outs, opsc_inouts]
    simp only [Finset.mem_union, Finset.mem_sdiff, Finset.mem_inter]
    tauto
  · intro k1 k2 f h1 h2 hl hr
    rw [opsc_inouts, Finset.mem_inter]
    exact ⟨(mem_rhs_datasets eqs f).mpr ⟨k2, h2, hr⟩, (mem_lhs_datasets eqs f).mpr ⟨k1, h1, hl⟩⟩

/-- Witness for C1: in a kernel with equations `a = b` and `b = a`
(field `a` written by the first, read by the second), `a` is classified
`inout`. -/
theorem dataset_classification_partition_witness :
    PyEqItem.eqn ⟨{0}, {1}, ∅⟩ ∈
      ([PyEqItem.eqn ⟨{0}, {1}, ∅⟩, PyEqItem.eqn ⟨{1}, {0}, ∅⟩] : List (PyEqItem Nat)) ∧
    (0 : Nat) ∈ opsc_inouts
      ([PyEqItem.eqn ⟨{0}, {1}, ∅⟩, PyEqItem.eqn ⟨{1}, {0}, ∅⟩] : List (PyEqItem Nat)) := by
  refine ⟨by simp, ?_⟩
  exact (dataset_classification_partition
      ([PyEqItem.eqn ⟨{0}, {1}, ∅⟩, PyEqItem.eqn ⟨{1}, {0}, ∅⟩] : List (PyEqItem Nat))).2.2.2.2.2.2.2
    ⟨{0}, {1}, ∅⟩ ⟨{1}, {0}, ∅⟩ 0 (by simp) (by simp) (by decide) (by decide)

/-! ## Claim C7: `Kernel.add_equation` -/

omit [DecidableEq F] in
/-- Claim C7 (corrected): `add_equation` appends a single equality,
appends the contents of a list in order (so an empty list is a no-op),
silently ignores any *truthy* non-list non-equality argument, and raises
`ValueError` exactly on a *falsy* non-list non-equality argument. -/
theorem add_equation_behaviour (eqs : List (PyEqItem F)) (e : KEquation F)
    (l : List (PyEqItem F)) :
    add_equation eqs (AddEqArg.eqn e) = Except.ok (eqs ++ [PyEqItem.eqn e]) ∧
    add_equation eqs (AddEqArg.eqnList l) = Except.ok (eqs ++ l) ∧
    add_equation eqs (AddEqArg.nonEq true) = Except.ok eqs ∧
    add_equation eqs (AddEqArg.nonEq false) = Except.error "Error in kernel add equation." :=
  ⟨rfl, rfl, rfl, rfl⟩

/-- Counterexample to C7 as stated: the claim says a falsy argument is a
no-op and any other non-equality argument raises; the code does the
opposite — `None` (falsy, not a list, not an `Equality`) raises
`ValueError`, while a truthy non-equality object is silently ignored. -/
theorem add_equation_falsy_raises :
    add_equation ([] : List (PyEqItem Nat)) (AddEqArg.nonEq false)
      = Except.error "Error in kernel add equation." ∧
    add_equation ([] : List (PyEqItem Nat)) (AddEqArg.nonEq true) = Except.ok [] :=
  ⟨rfl, rfl⟩

/-! ## Claim C6: rational printing -/

omit [DecidableEq F] in
/-- Claim C6: `_print_Rational` renders a non-integer rational `p/q`
as the literal `p.0/q.0`; a number with `q = 1` (a sympy `Integer`) is
printed as the plain integer and never in the division form; and
`Kernel.Rational_constants` excludes all integers. -/
theorem rational_printing (r : SRat) (n : Int) (eqs : List (PyEqItem F)) :
    (r.q ≠ 1 → print_Number r = toString r.p ++ ".0/" ++ toString r.q ++ ".0") ∧
    print_Number { p := n, q := 1 } = toString n ∧
    print_Number { p := n, q := 1 } ≠ print_Rational { p := n, q := 1 } ∧
    (∀ rc ∈ Rational_constants eqs, ¬ rc.q = 1) := by
  refine ⟨?_, ?_, ?_, ?_⟩
  · intro hq
    rw [print_Number, if_neg hq, print_Rational]
  · rw [print_Number, if_pos rfl]
  · rw [print_Number, if_pos rfl, print_Rational]
    intro h
    have hlen := congrArg String.length h
    simp only [String.length_append] at hlen
    have h1 : (".0/" : String).length = 3 := rfl
    have h2 : (".0" : String).length = 2 := rfl
    have h3 : (toString (1 : Int)).length = 1 := rfl
    omega
  · intro rc hm
    rw [Rational_constants, Finset.mem_filter] at hm
    exact hm.2

/-- Witness for C6: `3/4` prints as `3.0/4.0`, integer `4` prints as `4`. -/
theorem rational_printing_witness :
    print_Number { p := 3, q := 4 } = "3.0/4.0" ∧
    print_Number { p := 4, q := 1 } = "4" := by
  have h := rational_printing (F := Nat) { p := 3, q := 4 } 4 []
  exact ⟨(h.1 (by decide)).trans (by decide), h.2.1.trans (by decide)⟩

/-! ## Claim C10: partiality of `_print_Indexed` -/

/-- Claim C10: printing an indexed access is partial in the access-mode
mapping.  With `Indexed_accs = None` (the `ccode` default) the lookup
itself fails; with a mapping that lacks the base, the subscript is a
`KeyError`; the untagged `name[offsets]` form is produced exactly for a
present base with a falsy tag, and the tagged `name[TAG(offsets)]` form
for a present base with a truthy tag. -/
theorem print_Indexed_partial (m : List (String × Option String)) (base tag : String)
    (offs : List Int) :
    print_Indexed none base offs
        = Except.error "TypeError: NoneType object is not subscriptable" ∧
    (mapLookup m base = none → print_Indexed (some m) base offs = Except.error "KeyError") ∧
    (mapLookup m base = some none →
      print_Indexed (some m) base offs
        = Except.ok (base ++ "[" ++ joinIndices offs ++ "]")) ∧
    (mapLookup m base = some (some tag) →
      print_Indexed (some m) base offs
        = Except.ok (base ++ "[" ++ tag ++ "(" ++ joinIndices offs ++ ")]")) ∧
    (∀ out, print_Indexed (some m) base offs = Except.ok out → mapLookup m base ≠ none) := by
  refine ⟨rfl, ?_, ?_, ?_, ?_⟩
  · intro h
    rw [print_Indexed, h]
  · intro h
    rw [print_Indexed, h]
  · intro h
    rw [print_Indexed, h]
  · intro out hok hnone
    rw [print_Indexed, hnone] at hok
    exact Except.noConfusion hok

/-- Witness for C10 at a concrete mapping `{phi ↦ None}`: the base `phi`
prints untagged, the absent base `rho` is a `KeyError`, and the default
`None` mapping is a `TypeError`. -/
theorem print_Indexed_partial_witness :
    print_Indexed (some [("phi", none)]) "phi" [1]
        = Except.ok ("phi" ++ "[" ++ joinIndices [1] ++ "]") ∧
    print_Indexed (some [("phi", none)]) "rho" [1] = Except.error "KeyError" ∧
    print_Indexed none "phi" [1]
        = Except.error "TypeError: NoneType object is not subscriptable" := by
  have h := print_Indexed_partial [("phi", none)] "phi" "OPS_ACC0" [1]
  have h2 := print_Indexed_partial [("phi", none)] "rho" "OPS_ACC0" [1]
  exact ⟨h.2.2.1 (by decide), h2.2.1 (by decide), h.1⟩

/-! ## Claim C3: halo reduction and finalized iteration range -/

theorem foldl_min_le : ∀ (t : List Int) (h x : Int), x ∈ h :: t → t.foldl min h ≤ x := by
  intro t
  induction t with
  | nil =>
    intro h x hx
    rw [List.mem_singleton] at hx
    exact le_of_eq (hx ▸ rfl)
  | cons a t ih =>
    intro h x hx
    rw [List.foldl_cons]
    rcases List.mem_cons.mp hx with hx | hx
    · subst hx
      exact le_trans (ih (min x a) (min x a) (List.mem_cons_self _ _)) (min_le_left _ _)
    rcases List.mem_cons.mp hx with hx | hx
    · subst hx
      exact le_trans (ih (min h x) (min h x) (List.mem_cons_self _ _)) (min_le_right _ _)
    · exact ih (min h a) x (List.mem_cons_of_mem _ hx)

theorem foldl_min_mem (t : List Int) (h : Int) : t.foldl min h ∈ h :: t := by
  induction t generalizing h with
  | nil => exact List.mem_singleton.mpr rfl
  | cons a t ih =>
    rw [List.foldl_cons]
    have := ih (min h a)
    rcases List.mem_cons.mp this with hm | hm
    · rcases min_choice h a with hc | hc
      · exact List.mem_cons.mpr (Or.inl (hm.trans hc))
      · exact List.mem_cons.mpr (Or.inr (List.mem_cons.mpr (Or.inl (hm.trans hc))))
    · exact List.mem_cons.mpr (Or.inr (List.mem_cons.mpr (Or.inr hm)))

theorem le_foldl_max : ∀ (t : List Int) (h x : Int), x ∈ h :: t → x ≤ t.foldl max h := by
  intro t
  induction t with
  | nil =>
    intro h x hx
    rw [List.mem_singleton] at hx
    exact le_of_eq (hx ▸ rfl)
  | cons a t ih =>
    intro h x hx
    rw [List.foldl_cons]
    rcases List.mem_cons.mp hx with hx | hx
    · subst hx
      exact le_trans (le_max_left _ _) (ih (max x a) (max x a) (List.mem_cons_self _ _))
    rcases List.mem_cons.mp hx with hx | hx
    · subst hx
      exact le_trans (le_max_right _ _) (ih (max h x) (max h x) (List.mem_cons_self _ _))
    · exact ih (max h a) x (List.mem_cons_of_mem _ hx)

theorem foldl_max_mem (t : List Int) (h : Int) : t.foldl max h ∈ h :: t := by
  induction t generalizing h with
  | nil => exact List.mem_singleton.mpr rfl
  | cons a t ih =>
    rw [List.foldl_cons]
    have := ih (max h a)
    rcases List.mem_cons.mp this with hm | hm
    · rcases max_choice h a with hc | hc
      · exact List.mem_cons.mpr (Or.inl (hm.trans hc))
      · exact List.mem_cons.mpr (Or.inr (List.mem_cons.mpr (Or.inl (hm.trans hc))))
    · exact List.mem_cons.mpr (Or.inr (List.mem_cons.mpr (Or.inr hm)))

/-- Lemma: `getD` through a `map`, under the index bound. -/
theorem getD_map_of_lt {α β : Type} (f : α → β) (l : List α) (d : Nat) (da : α) (db : β)
    (hd : d < l.length) : (l.map f).getD d db = f (l.getD d da) := by
  rw [List.getD_eq_getElem?_getD, List.getElem?_map, List.getD_eq_getElem?_getD,
    List.getElem?_eq_getElem hd]
  simp

/-- Claim C3: for every dimension `d` of a finalized kernel, the emitted
iteration range is the base range with the lower bound shifted by the
reduction of the negative-side halo contributor set (its minimum, 0 when
empty) and the upper bound shifted by the reduction of the positive-side
set (its maximum, 0 when empty). -/
theorem iteration_range_halo (ndim : Nat) (ranges : List (Int × Int))
    (halos : List (List HaloC × List HaloC)) (d : Nat)
    (hd : d < ndim) (hh : halos.length = ndim) :
    (range_of_eval ndim ranges halos).getD d (0, 0)
      = ((ranges.getD d (0, 0)).1 + (get_min_max_halo_values halos).1.getD d 0,
         (ranges.getD d (0, 0)).2 + (get_min_max_halo_values halos).2.getD d 0) ∧
    ((halos.getD d ([], [])).1 = [] → (get_min_max_halo_values halos).1.getD d 0 = 0) ∧
    ((halos.getD d ([], [])).1 ≠ [] →
      (get_min_max_halo_values halos).1.getD d 0
          ∈ (halos.getD d ([], [])).1.map (fun c => c.get_halos 0) ∧
      ∀ x ∈ (halos.getD d ([], [])).1.map (fun c => c.get_halos 0),
        (get_min_max_halo_values halos).1.getD d 0 ≤ x) ∧
    ((halos.getD d ([], [])).2 = [] → (get_min_max_halo_values halos).2.getD d 0 = 0) ∧
    ((halos.getD d ([], [])).2 ≠ [] →
      (get_min_max_halo_values halos).2.getD d 0
          ∈ (halos.getD d ([], [])).2.map (fun c => c.get_halos 1) ∧
      ∀ x ∈ (halos.getD d ([], [])).2.map (fun c => c.get_halos 1),
        x ≤ (get_min_max_halo_values halos).2.getD d 0) := by
  have hdl : d < halos.length := hh ▸ hd
  have hm1 : (get_min_max_halo_values halos).1.getD d 0
      = (match (halos.getD d ([], [])).1.map (fun c => c.get_halos 0) with
         | [] => 0
         | h :: t => t.foldl min h) := by
    rw [get_min_max_halo_values]
    exact getD_map_of_lt _ halos d ([], []) 0 hdl
  have hm2 : (get_min_max_halo_values halos).2.getD d 0
      = (match (halos.getD d ([], [])).2.map (fun c => c.get_halos 1) with
         | [] => 0
         | h :: t => t.foldl max h) := by
    rw [get_min_max_halo_values]
    exact getD_map_of_lt _ halos d ([], []) 0 hdl
  have hrange : (List.range ndim).getD d 0 = d := by
    rw [List.getD_eq_getElem?_getD, List.getElem?_range hd]
    rfl
  refine ⟨?_, ?_, ?_, ?_, ?_⟩
  · rw [range_of_eval, getD_map_of_lt _ _ d 0 (0, 0) (by simpa using hd), hrange]
  · intro hnil
    rw [hm1]
    simp only [hnil, List.map_nil]
  · intro hne
    rcases hex : (halos.getD d ([], [])).1.map (fun c => c.get_halos 0) with _ | ⟨h, t⟩
    · exact absurd (List.map_eq_nil_iff.mp hex) hne
    · rw [hm1]
      simp only [hex]
      exact ⟨foldl_min_mem t h, fun x hx => foldl_min_le t h x hx⟩
  · intro hnil
    rw [hm2]
    simp only [hnil, List.map_nil]
  · intro hne
    rcases hex : (halos.getD d ([], [])).2.map (fun c => c.get_halos 1) with _ | ⟨h, t⟩
    · exact absurd (List.map_eq_nil_iff.mp hex) hne
    · rw [hm2]
      simp only [hex]
      exact ⟨foldl_max_mem t h, fun x hx => le_foldl_max t h x hx⟩

/-- Witness for C3, the spec's example: base range `[0, 200)` and one
halo contributor of extents `(-1, +1)` on each side gives the finalized
range `[-1, 201)`. -/
theorem iteration_range_halo_witness :
    (range_of_eval 1 [((0 : Int), (200 : Int))]
        [([⟨-1, 1⟩], [⟨-1, 1⟩])]).getD 0 (0, 0) = (-1, 201) := by
  have h := iteration_range_halo 1 [((0 : Int), (200 : Int))]
    [([⟨-1, 1⟩], [⟨-1, 1⟩])] 0 (by decide) (by decide)
  exact h.1.trans (by decide)

/-! ## Claims C2 and C9: stencil extraction -/

theorem atomsSym_subsSym (e : IExpr) (s : Nat) :
    (e.subsSym s 0).atomsSym = e.atomsSym.filter (fun m => decide (¬ m = s)) := by
  induction e with
  | sym m =>
    by_cases h : m = s
    · simp [IExpr.subsSym, IExpr.atomsSym, h]
    · simp [IExpr.subsSym, IExpr.atomsSym, h]
  | lit k => simp [IExpr.subsSym, IExpr.atomsSym]
  | add a b iha ihb => simp [IExpr.subsSym, IExpr.atomsSym, iha, ihb, List.filter_append]
  | mul a b iha ihb => simp [IExpr.subsSym, IExpr.atomsSym, iha, ihb, List.filter_append]

theorem atomsSym_foldl_subs (l : List Nat) : ∀ (e : IExpr),
    (l.foldl (fun ex s => ex.subsSym s 0) e).atomsSym
      = e.atomsSym.filter (fun m => decide (¬ m ∈ l)) := by
  induction l with
  | nil =>
    intro e
    simp
  | cons s t ih =>
    intro e
    rw [List.foldl_cons, ih, atomsSym_subsSym, List.filter_filter]
    apply List.filter_congr
    intro m _
    simp [List.mem_cons, not_or, Bool.and_comm]

theorem atomsSym_zeroAllSyms (e : IExpr) : (zeroAllSyms e).atomsSym = [] := by
  rw [zeroAllSyms, atomsSym_foldl_subs]
  rw [List.filter_eq_nil_iff]
  intro a ha
  simp [ha]

theorem reduceToInt_of_atoms_nil (σ : Nat → Int) :
    ∀ (e : IExpr), e.atomsSym = [] → reduceToInt e = some (e.eval σ) := by
  intro e
  induction e with
  | sym m => intro h; exact absurd h (by simp [IExpr.atomsSym])
  | lit k => intro _; rfl
  | add a b iha ihb =>
    intro h
    rw [IExpr.atomsSym, List.append_eq_nil] at h
    rw [reduceToInt, iha h.1, ihb h.2, IExpr.eval]
  | mul a b iha ihb =>
    intro h
    rw [IExpr.atomsSym, List.append_eq_nil] at h
    rw [reduceToInt, iha h.1, ihb h.2, IExpr.eval]

theorem eval0_subsSym (s : Nat) : ∀ (e : IExpr),
    (e.subsSym s 0).eval (fun _ => 0) = e.eval (fun _ => 0) := by
  intro e
  induction e with
  | sym m =>
    by_cases h : m = s
    · simp [IExpr.subsSym, IExpr.eval, h]
    · simp [IExpr.subsSym, IExpr.eval, h]
  | lit k => rfl
  | add a b iha ihb => rw [IExpr.subsSym, IExpr.eval, iha, ihb, IExpr.eval]
  | mul a b iha ihb => rw [IExpr.subsSym, IExpr.eval, iha, ihb, IExpr.eval]

theorem eval0_foldl_subs (l : List Nat) : ∀ (e : IExpr),
    (l.foldl (fun ex s => ex.subsSym s 0) e).eval (fun _ => 0) = e.eval (fun _ => 0) := by
  induction l with
  | nil => intro e; rfl
  | cons s t ih =>
    intro e
    rw [List.foldl_cons, ih, eval0_subsSym]

/-- The OPSC offset normalisation is total: after `relative_stencil`'s
substitution loop, every offset has collapsed to the sympy `Integer`
equal to its value with all symbols at 0 — the derivation can never
encounter a surviving symbolic offset. -/
theorem reduceToInt_zeroAllSyms (e : IExpr) :
    reduceToInt (zeroAllSyms e) = some (evalZero e) := by
  rw [reduceToInt_of_atoms_nil (fun _ => 0) (zeroAllSyms e) (atomsSym_zeroAllSyms e)]
  rw [zeroAllSyms, eval0_foldl_subs, evalZero]

theorem seqOption_map_some {α β : Type} (f : α → Option β) (g : α → β) :
    ∀ (l : List α), (∀ x ∈ l, f x = some (g x)) → seqOption (l.map f) = some (l.map g) := by
  intro l
  induction l with
  | nil => intro _; rfl
  | cons a t ih =>
    intro h
    rw [List.map_cons, List.map_cons, seqOption.eq_def]
    rw [h a (List.mem_cons_self _ _)]
    show (match seqOption (t.map f) with
      | none => none
      | some xs => some (g a :: xs)) = some (g a :: t.map g)
    rw [ih (fun x hx => h x (List.mem_cons_of_mem _ hx))]

/-- Lemma: `relative_stencil` computes the sorted, flattened,
symbol-zeroed offsets, and never fails. -/
theorem relative_stencil_eq (value : List (List IExpr)) :
    relative_stencil value = some (sort_stencil_indices (zeroedOffsets value)) := by
  rw [relative_stencil]
  have h : seqOption (value.map
      (fun va => seqOption (va.map (fun v => reduceToInt (zeroAllSyms v)))))
      = some (zeroedOffsets value) := by
    rw [zeroedOffsets]
    apply seqOption_map_some
    intro va _
    exact seqOption_map_some _ _ va (fun v _ => reduceToInt_zeroAllSyms v)
  rw [h]
  rfl

theorem foldl_insertionSort_perm (ds : List Nat) : ∀ (l : List (List Int)),
    (ds.foldl (fun acc d => List.insertionSort (dimLe d) acc) l).Perm l := by
  induction ds with
  | nil => intro l; exact List.Perm.refl l
  | cons d ds ih =>
    intro l
    rw [List.foldl_cons]
    exact (ih _).trans (List.perm_insertionSort (dimLe d) l)

/-- The OPSC tuple sort is a permutation: it reorders the offset tuples
and adds or removes nothing. -/
theorem sortTuples_perm (l : List (List Int)) : (sortTuples l).Perm l := by
  rw [sortTuples]
  split
  · exact foldl_insertionSort_perm _ l
  · exact List.perm_insertionSort tupLe l

/-- Claim C2 (corrected): `OPSC.relative_stencil` adds no zero-offset
tuple — its output is exactly the symbol-zeroed reference offsets,
sorted (a permutation of `zeroedOffsets`); it contains the zero tuple
only when some reference zeroes to it.  The always-include-zero
behaviour belongs to the legacy autofd kernel writer, whose stencil
normalisation appends the all-zero tuple before deduplication and
sorting, so its canonical tuple list always contains the zero tuple. -/
theorem stencil_zero_offset (ndim : Nat) (indexes : List (List Int))
    (value : List (List IExpr)) :
    List.replicate ndim 0 ∈ autofd_stencil_tuples ndim indexes ∧
    relative_stencil value = some (sort_stencil_indices (zeroedOffsets value)) ∧
    (sortTuples (zeroedOffsets value)).Perm (zeroedOffsets value) := by
  refine ⟨?_, relative_stencil_eq value, sortTuples_perm _⟩
  rw [autofd_stencil_tuples]
  exact (sortTuples_perm _).mem_iff.mpr (List.mem_dedup.mpr (by simp))

/-- Counterexample to C2 as stated: a field referenced only at offset
`+1` (index expression `i0 + 1`): `OPSC.relative_stencil` yields the
stencil `[1]`, which does not contain the zero offset. -/
theorem relative_stencil_no_zero_added :
    relative_stencil [[IExpr.add (IExpr.sym 0) (IExpr.lit 1)]] = some [1] ∧
    ¬ ((0 : Int) ∈ (relative_stencil [[IExpr.add (IExpr.sym 0) (IExpr.lit 1)]]).getD []) := by
  decide

/-- Claim C9 (corrected): `OPSC.relative_stencil` never reports a
derivation failure — it is total.  Every symbol of an offset (loop
index or not) is substituted by 0, so every offset collapses to a pure
integer and a symbolic, non-constant offset is silently approximated
rather than reported. -/
theorem relative_stencil_never_fails (value : List (List IExpr)) (e : IExpr) :
    (relative_stencil value).isSome = true ∧
    reduceToInt (zeroAllSyms e) = some (evalZero e) := by
  refine ⟨?_, reduceToInt_zeroAllSyms e⟩
  rw [relative_stencil_eq value]
  rfl

/-- Counterexample to C9 as stated: the offset `i0 + c` (`c` a symbol
that is not a loop index) does not reduce to a pure integer after the
loop symbol `i0` is substituted by 0, yet `relative_stencil` raises no
error and returns the approximated stencil `[0]`. -/
theorem relative_stencil_silently_approximates :
    reduceToInt ((IExpr.add (IExpr.sym 0) (IExpr.sym 5)).subsSym 0 0) = none ∧
    relative_stencil [[IExpr.add (IExpr.sym 0) (IExpr.sym 5)]] = some [0] := by
  decide

/-! ## Claim C5: repeated dimension-wise stable sorts vs lexicographic sort -/

instance : IsTotal (Int × Int) pairLe0 := ⟨fun a b => le_total a.1 b.1⟩

instance : IsTrans (Int × Int) pairLe0 := ⟨fun _ _ _ hab hbc => le_trans hab hbc⟩

instance : IsTotal (Int × Int) pairLe1 := ⟨fun a b => le_total a.2 b.2⟩

instance : IsTrans (Int × Int) pairLe1 := ⟨fun _ _ _ hab hbc => le_trans hab hbc⟩

instance : IsTotal (Int × Int) pairColex := by
  refine ⟨fun a b => ?_⟩
  simp only [pairColex]
  omega

instance : IsTrans (Int × Int) pairColex := by
  refine ⟨fun a b c hab hbc => ?_⟩
  simp only [pairColex] at hab hbc ⊢
  omega

instance : IsAntisymm (Int × Int) pairColex := by
  refine ⟨fun a b hab hba => ?_⟩
  simp only [pairColex] at hab hba
  exact Prod.ext (by omega) (by omega)

theorem orderedInsert_congr_mem {α : Type} (r1 r2 : α → α → Prop)
    [DecidableRel r1] [DecidableRel r2] (a : α) :
    ∀ (l : List α), (∀ y ∈ l, r1 a y ↔ r2 a y) →
      List.orderedInsert r1 a l = List.orderedInsert r2 a l := by
  intro l
  induction l with
  | nil => intro _; rfl
  | cons b t ih =>
    intro h
    rw [List.orderedInsert, List.orderedInsert]
    by_cases hr : r1 a b
    · rw [if_pos hr, if_pos ((h b (List.mem_cons_self _ _)).mp hr)]
    · rw [if_neg hr, if_neg (fun hc => hr ((h b (List.mem_cons_self _ _)).mpr hc)),
        ih (fun y hy => h y (List.mem_cons_of_mem _ hy))]

/-- A stable sort by the dimension-1 key of a list already sorted by the
dimension-0 key produces the colexicographic order: among dimension-1
ties the dimension-0 order of the input is preserved. -/
theorem insertionSort_snd_of_sorted_fst :
    ∀ (l : List (Int × Int)), List.Sorted pairLe0 l →
      List.insertionSort pairLe1 l = List.insertionSort pairColex l := by
  intro l
  induction l with
  | nil => intro _; rfl
  | cons a t ih =>
    intro hs
    rw [List.insertionSort, List.insertionSort, ih hs.of_cons]
    apply orderedInsert_congr_mem
    intro y hy
    have hmem : y ∈ t := ((List.perm_insertionSort pairColex t).mem_iff).mp hy
    have hfst : a.1 ≤ y.1 := (List.sorted_cons.mp hs).1 y hmem
    simp only [pairLe1, pairColex]
    omega

/-- The two stable sorts of `OPSC.sort_stencil_indices` at dimension 2
(`sorted` by component 0, then `sorted` by component 1) produce exactly
the colexicographic order. -/
theorem opsc_sort_pairs_eq_colex (l : List (Int × Int)) :
    opsc_sort_pairs l = List.insertionSort pairColex l := by
  rw [opsc_sort_pairs,
    insertionSort_snd_of_sorted_fst _ (List.sorted_insertionSort pairLe0 l)]
  exact List.eq_of_perm_of_sorted
    (((List.perm_insertionSort pairColex _).trans
      (List.perm_insertionSort pairLe0 l)).trans (List.perm_insertionSort pairColex l).symm)
    (List.sorted_insertionSort pairColex _)
    (List.sorted_insertionSort pairColex l)

theorem orderedInsert_map {α β : Type} (r : β → β → Prop) [DecidableRel r]
    (s : α → α → Prop) [DecidableRel s] (f : α → β)
    (hrel : ∀ a b, r (f a) (f b) ↔ s a b) (x : α) :
    ∀ (l : List α), List.orderedInsert r (f x) (l.map f) = (List.orderedInsert s x l).map f := by
  intro l
  induction l with
  | nil => rfl
  | cons b t ih =>
    rw [List.map_cons, List.orderedInsert, List.orderedInsert]
    by_cases h : s x b
    · rw [if_pos ((hrel x b).mpr h), if_pos h, List.map_cons, List.map_cons]
    · rw [if_neg (fun hc => h ((hrel x b).mp hc)), if_neg h, List.map_cons, ih]

theorem insertionSort_map {α β : Type} (r : β → β → Prop) [DecidableRel r]
    (s : α → α → Prop) [DecidableRel s] (f : α → β)
    (hrel : ∀ a b, r (f a) (f b) ↔ s a b) :
    ∀ (l : List α), List.insertionSort r (l.map f) = (List.insertionSort s l).map f := by
  intro l
  induction l with
  | nil => rfl
  | cons a t ih =>
    rw [List.map_cons, List.insertionSort, List.insertionSort, ih,
      orderedInsert_map r s f hrel a]

theorem dimLe_zero_encodePair (a b : Int × Int) :
    dimLe 0 (encodePair a) (encodePair b) ↔ pairLe0 a b := Iff.rfl

theorem dimLe_one_encodePair (a b : Int × Int) :
    dimLe 1 (encodePair a) (encodePair b) ↔ pairLe1 a b := Iff.rfl

/-- Claim C5 (corrected): the repeated dimension-wise stable sorts of
`OPSC.sort_stencil_indices` produce the *colexicographic* order (last
dimension most significant) — at dimension 2, exactly
`insertionSort pairColex` — not the lexicographic order of
`StencilObject.sort_stencil_indices`; the two orderings agree for
one-dimensional stencils, where both reduce to one plain sort. -/
theorem repeated_sort_is_colex (l : List (Int × Int)) (l1 : List (List Int)) :
    sortTuples (l.map encodePair) = (List.insertionSort pairColex l).map encodePair ∧
    opsc_sort_pairs l = List.insertionSort pairColex l ∧
    ((∀ x ∈ l1, x.length = 1) → sortTuples l1 = stencil_sort_tuples l1) := by
  refine ⟨?_, opsc_sort_pairs_eq_colex l, ?_⟩
  · cases l with
    | nil => rfl
    | cons p t =>
      rw [sortTuples]
      rw [if_pos (by simp [encodePair])]
      have hrange : ((List.map encodePair (p :: t)).headD []).length = 2 := by
        simp [encodePair]
      rw [hrange]
      have h2 : List.range 2 = [0, 1] := rfl
      rw [h2, List.foldl_cons, List.foldl_cons, List.foldl_nil]
      rw [insertionSort_map (dimLe 0) pairLe0 encodePair dimLe_zero_encodePair]
      rw [insertionSort_map (dimLe 1) pairLe1 encodePair dimLe_one_encodePair]
      have := opsc_sort_pairs_eq_colex (p :: t)
      rw [opsc_sort_pairs] at this
      rw [this]
  · intro h1
    rw [sortTuples, stencil_sort_tuples]
    rw [if_neg ?_]
    cases l1 with
    | nil => simp
    | cons x t =>
      have : x.length = 1 := h1 x (List.mem_cons_self _ _)
      simp [this]

/-- Witness for C5 (amended): at the 1-dimensional stencil
`[[2], [1]]` the repeated sort and the lexicographic sort agree. -/
theorem repeated_sort_is_colex_witness :
    sortTuples ([[2], [1]] : List (List Int))
      = stencil_sort_tuples ([[2], [1]] : List (List Int)) := by
  have h := repeated_sort_is_colex ([] : List (Int × Int)) ([[2], [1]] : List (List Int))
  exact h.2.2 (by decide)

/-- Counterexample to C5 as stated: on the offset set `{(0,1), (1,0)}`
the repeated dimension-wise sorts give `[(1,0), (0,1)]` (colex), while
the lexicographic tuple sort of `StencilObject.sort_stencil_indices`
gives `[(0,1), (1,0)]`. -/
theorem repeated_vs_lex_counterexample :
    sortTuples ([[0, 1], [1, 0]] : List (List Int)) = [[1, 0], [0, 1]] ∧
    stencil_sort_tuples ([[0, 1], [1, 0]] : List (List Int)) = [[0, 1], [1, 0]] ∧
    sortTuples ([[0, 1], [1, 0]] : List (List Int))
      ≠ stencil_sort_tuples ([[0, 1], [1, 0]] : List (List Int)) := by
  decide

/-! ## Claim C4: program-wide stencil registry -/

theorem update_block_stencils_cons (bn nd : Nat) (r : StencilRegistry) (s : Footprint)
    (t : List Footprint) :
    update_block_stencils bn nd r (s :: t)
      = update_block_stencils bn nd
          (if s ∈ regKeys r then r else r ++ [(s, ⟨mkStencilName bn r.length, s, nd⟩)]) t := by
  rw [update_block_stencils, List.foldl_cons]
  rfl

theorem update_block_stencils_append (bn nd : Nat) :
    ∀ (stens : List Footprint) (r : StencilRegistry),
      ∃ t, update_block_stencils bn nd r stens = r ++ t := by
  intro stens
  induction stens with
  | nil => intro r; exact ⟨[], (List.append_nil r).symm⟩
  | cons s t ih =>
    intro r
    rw [update_block_stencils_cons]
    by_cases h : s ∈ regKeys r
    · rw [if_pos h]
      exact ih r
    · rw [if_neg h]
      obtain ⟨t2, ht2⟩ := ih (r ++ [(s, ⟨mkStencilName bn r.length, s, nd⟩)])
      exact ⟨[(s, ⟨mkStencilName bn r.length, s, nd⟩)] ++ t2, by rw [ht2, List.append_assoc]⟩

theorem regKeys_mono (bn nd : Nat) (stens : List Footprint) (r : StencilRegistry)
    (s : Footprint) (h : s ∈ regKeys r) :
    s ∈ regKeys (update_block_stencils bn nd r stens) := by
  obtain ⟨t, ht⟩ := update_block_stencils_append bn nd stens r
  rw [ht, regKeys, List.map_append]
  exact List.mem_append_left _ h

theorem mem_regKeys_update (bn nd : Nat) :
    ∀ (stens : List Footprint) (r : StencilRegistry) (s : Footprint), s ∈ stens →
      s ∈ regKeys (update_block_stencils bn nd r stens) := by
  intro stens
  induction stens with
  | nil => intro r s h; exact absurd h (List.not_mem_nil s)
  | cons s0 t ih =>
    intro r s h
    rw [update_block_stencils_cons]
    rcases List.mem_cons.mp h with h | h
    · subst h
      apply regKeys_mono
      by_cases hm : s ∈ regKeys r
      · rw [if_pos hm]; exact hm
      · rw [if_neg hm, regKeys, List.map_append]
        exact List.mem_append_right _ (by simp)
    · exact ih _ s h

theorem regLookup_update_of_mem (bn nd : Nat) (stens : List Footprint)
    (r : StencilRegistry) (s : Footprint) (h : s ∈ regKeys r) :
    regLookup (update_block_stencils bn nd r stens) s = regLookup r s := by
  obtain ⟨t, ht⟩ := update_block_stencils_append bn nd stens r
  rw [ht, regLookup, regLookup, List.find?_append]
  have hsome : (r.find? (fun e => decide (e.1 = s))).isSome = true := by
    rw [List.find?_isSome]
    rw [regKeys] at h
    obtain ⟨e, he, he1⟩ := List.mem_map.mp h
    exact ⟨e, he, by simp [he1]⟩
  cases hf : r.find? (fun e => decide (e.1 = s)) with
  | none => rw [hf] at hsome; exact absurd hsome (by simp)
  | some v => rfl

theorem update_block_stencils_of_all_mem (bn nd : Nat) :
    ∀ (stens : List Footprint) (r : StencilRegistry),
      (∀ s ∈ stens, s ∈ regKeys r) → update_block_stencils bn nd r stens = r := by
  intro stens
  induction stens with
  | nil => intro r _; rfl
  | cons s t ih =>
    intro r h
    rw [update_block_stencils_cons, if_pos (h s (List.mem_cons_self _ _))]
    exact ih r (fun x hx => h x (List.mem_cons_of_mem _ hx))

theorem incrementallyNumbered_update (bn nd : Nat) :
    ∀ (stens : List Footprint) (r : StencilRegistry),
      incrementallyNumbered bn r →
      incrementallyNumbered bn (update_block_stencils bn nd r stens) := by
  intro stens
  induction stens with
  | nil => intro r h; exact h
  | cons s t ih =>
    intro r h
    rw [update_block_stencils_cons]
    by_cases hm : s ∈ regKeys r
    · rw [if_pos hm]
      exact ih r h
    · rw [if_neg hm]
      apply ih
      intro i hi
      rw [List.length_append, List.length_singleton] at hi
      rw [incrementallyNumbered] at h
      rcases Nat.lt_or_ge i r.length with hlt | hge
      · rw [List.get_eq_getElem, List.getElem_append_left hlt]
        have := h i hlt
        rw [List.get_eq_getElem] at this
        exact this
      · have hieq : i = r.length := by omega
        subst hieq
        rw [List.get_eq_getElem, List.getElem_append_right (le_refl r.length)]
        simp

theorem mapInsert_lookup {α β : Type} [DecidableEq α] :
    ∀ (m : List (α × β)) (k : α) (v : β), mapLookup m k = some v → mapInsert m k v = m := by
  intro m
  induction m with
  | nil =>
    intro k v h
    exact absurd h (by simp [mapLookup])
  | cons e t ih =>
    intro k v h
    obtain ⟨k1, v1⟩ := e
    by_cases hk : k1 = k
    · rw [mapLookup, List.find?_cons_of_pos t (by simp [hk])] at h
      have hv : v1 = v := by simpa using h
      rw [mapInsert, if_pos hk, hk, hv]
    · rw [mapLookup, List.find?_cons_of_neg t (by simp [hk])] at h
      rw [mapInsert, if_neg hk, ih k v h]

/-- Claim C4: the stencil registry deduplicates by canonical footprint
and only grows.  In order: (append-only) an update only appends; (idempotence)
re-running a kernel's registry update adds nothing; every processed
footprint is registered afterwards; an existing entry is never
overwritten, so (same-name) a footprint already registered keeps its
name through any later kernel's update — two kernels with the identical
canonical footprint receive the identical stencil name; the names are
numbered incrementally in first-use order; and the dataset half of
`update_block_datasets` is likewise a no-op for an already-registered,
consistent dataset. -/
theorem stencil_registry_invariants (bn nd : Nat) (r : StencilRegistry)
    (stens stens2 : List Footprint) (blk : SBlock) (st : BDState)
    (dname : String) (dset : DSetAttrs) :
    (∃ t, update_block_stencils bn nd r stens = r ++ t) ∧
    update_block_stencils bn nd (update_block_stencils bn nd r stens) stens
      = update_block_stencils bn nd r stens ∧
    (∀ s ∈ stens, s ∈ regKeys (update_block_stencils bn nd r stens)) ∧
    (∀ s, s ∈ regKeys r →
      regLookup (update_block_stencils bn nd r stens) s = regLookup r s) ∧
    (∀ s ∈ stens,
      assignedStencilName
          (update_block_stencils bn nd (update_block_stencils bn nd r stens) stens2) s
        = assignedStencilName (update_block_stencils bn nd r stens) s) ∧
    (incrementallyNumbered bn r →
      incrementallyNumbered bn (update_block_stencils bn nd r stens)) ∧
    (mapLookup st.block_datasets dname = some dset →
      dname ∈ st.datasetbases.map (fun e => e.1) →
      blk.blocknumber = dset.block_number → blk.shape = dset.size →
      update_block_dataset_one blk st dname = Except.ok st) := by
  refine ⟨update_block_stencils_append bn nd stens r,
    update_block_stencils_of_all_mem bn nd stens _ (mem_regKeys_update bn nd stens r),
    mem_regKeys_update bn nd stens r,
    fun s hs => regLookup_update_of_mem bn nd stens r s hs,
    ?_, incrementallyNumbered_update bn nd stens r, ?_⟩
  · intro s hs
    rw [assignedStencilName, assignedStencilName,
      regLookup_update_of_mem bn nd stens2 _ s (mem_regKeys_update bn nd stens r s hs)]
  · intro hfound hglobal hbn hsh
    rw [update_block_dataset_one]
    simp only [if_pos hglobal]
    rw [hfound]
    simp only [mapInsert_lookup st.block_datasets dname dset hfound]
    rw [if_neg (by simp [hbn]), if_neg (by simp [hsh])]

/-- Witness for C4 at a concrete registry: processing the footprint
`{[0]}` registers it, and a second kernel processing footprint `{[1]}`
afterwards leaves the name assigned to `{[0]}` unchanged. -/
theorem stencil_registry_invariants_witness :
    ({[0]} : Footprint) ∈ regKeys (update_block_stencils 0 1 [] [{[0]}]) ∧
    assignedStencilName
        (update_block_stencils 0 1 (update_block_stencils 0 1 [] [{[0]}]) [{[1]}]) {[0]}
      = assignedStencilName (update_block_stencils 0 1 [] [{[0]}]) {[0]} ∧
    incrementallyNumbered 0 (update_block_stencils 0 1 [] [{[0]}]) := by
  have h := stencil_registry_invariants 0 1 [] [{[0]}] [{[1]}]
    ⟨0, 1, "b", [], ∅⟩ ⟨[], []⟩ "f" ⟨0, [], [], "b"⟩
  refine ⟨h.2.2.1 {[0]} (by simp), h.2.2.2.2.1 {[0]} (by simp), h.2.2.2.2.2.1 ?_⟩
  intro i hi
  exact absurd hi (by simp)

/-! ## Claim C8: field-metadata consistency check -/

/-- Claim C8: re-registering an already-registered field with a
mismatching block number or shape raises `ValueError`, and the registry
state at the moment of the raise is exactly the original state — the
existing entry's block number, shape and halo record are untouched (the
pre-check write-back stores the looked-up record itself). -/
theorem dataset_reregistration_error (blk : SBlock) (st : BDState) (dname : String)
    (dset : DSetAttrs)
    (hfound : mapLookup st.block_datasets dname = some dset)
    (hglobal : dname ∈ st.datasetbases.map (fun e => e.1))
    (hmismatch : blk.blocknumber ≠ dset.block_number ∨ blk.shape ≠ dset.size) :
    ∃ msg, (msg = "Block number error" ∨ msg = "Shape error") ∧
      update_block_dataset_one blk st dname = Except.error (msg, st) ∧
      mapLookup st.block_datasets dname = some dset := by
  have hmain : ∃ msg, (msg = "Block number error" ∨ msg = "Shape error") ∧
      update_block_dataset_one blk st dname = Except.error (msg, st) := by
    rw [update_block_dataset_one]
    simp only [if_pos hglobal]
    rw [hfound]
    simp only [mapInsert_lookup st.block_datasets dname dset hfound]
    by_cases hbn : blk.blocknumber = dset.block_number
    · have hsh : blk.shape ≠ dset.size := by tauto
      refine ⟨"Shape error", Or.inr rfl, ?_⟩
      rw [if_neg (by simp [hbn]), if_pos hsh]
    · refine ⟨"Block number error", Or.inl rfl, ?_⟩
      rw [if_pos hbn]
  obtain ⟨msg, hor, heq⟩ := hmain
  exact ⟨msg, hor, heq, hfound⟩

/-- Witness for C8, the spec's scenario: field `f` registered for block 0
with shape `(202,)`; re-registering it for block 0 with shape `(100,)`
raises the shape-mismatch error with the registry state unchanged. -/
theorem dataset_reregistration_error_witness :
    ∃ msg, (msg = "Block number error" ∨ msg = "Shape error") ∧
      update_block_dataset_one ⟨0, 1, "b", [100], ∅⟩
          ⟨[("f", ⟨0, [202], [(∅, ∅)], "b"⟩)], [("f", ⟨0, [202], [(∅, ∅)], "b"⟩)]⟩ "f"
        = Except.error (msg,
            ⟨[("f", ⟨0, [202], [(∅, ∅)], "b"⟩)], [("f", ⟨0, [202], [(∅, ∅)], "b"⟩)]⟩) ∧
      mapLookup [("f", (⟨0, [202], [(∅, ∅)], "b"⟩ : DSetAttrs))] "f"
        = some ⟨0, [202], [(∅, ∅)], "b"⟩ := by
  exact dataset_reregistration_error ⟨0, 1, "b", [100], ∅⟩
    ⟨[("f", ⟨0, [202], [(∅, ∅)], "b"⟩)], [("f", ⟨0, [202], [(∅, ∅)], "b"⟩)]⟩ "f"
    ⟨0, [202], [(∅, ∅)], "b"⟩ (by decide) (by decide) (Or.inr (by decide))

end OpenSBLI
